import Mathlib

/-!
Shallow embedding of `src/resources/ChallengeCertificate.js` (the complete
variant; `src/unnamed/part_000` is an earlier draft of the same logic), the
certificate-lifecycle coordinator of the repository: leader election,
HTTP-01 challenge middleware, the retry-with-backoff wrapper, the issuance
state machine and the lifecycle orchestrator (subscription handler and
renewal scan).

Modelling conventions:
- JavaScript nullable values are `Option`; JS truthiness of strings,
  dates and booleans is made explicit (`jsTruthyStr` etc.).
- Asynchronous external calls (the acme-client session, the record store)
  are parametrised by an environment record whose fields give each call's
  outcome (`Except String _`), so a failure at any step is expressible.
- Timestamps are abstract day counts; `renewalDate.setDate(getDate()+60)`
  becomes `now + 60`.
- Side effects (record-store writes, protocol calls, sleeps) are collected
  into an explicit trace list, in program order; a call that throws still
  appears in the trace (the call was made), and nothing after it does.
-/

namespace ChallengeCertificate

/-! ## Data model: DomainCertificateRecord -/

/-- One row of the `ChallengeCertificate` table, one per domain. -/
structure DomainRecord where
  domain : String
  challengeToken : Option String := none
  challengeContent : Option String := none
  issueDate : Option Nat := none
  renewalDate : Option Nat := none
  inProgress : Bool := false
  deriving Repr, DecidableEq

/-- JS truthiness of a nullable string: `undefined`/`null` and `""` are falsy. -/
def jsTruthyStr : Option String → Bool
  | none => false
  | some s => s ≠ ""

/-- JS truthiness of a nullable date value: a `Date` object is truthy iff present. -/
def jsTruthyDate (o : Option Nat) : Bool :=
  o.isSome

/-- JS truthiness of a possibly-undefined boolean field. -/
def jsTruthyBool : Option Bool → Bool
  | none => false
  | some b => b

/-! ## Leader Elector (`isChallengeLeader`) -/

/-- A row of `databases.system.hdb_nodes`: a cluster member descriptor. -/
structure NodeIdentity where
  name : String
  deriving Repr, DecidableEq

/-- Result shape of `isChallengeLeader`. -/
structure ElectionResult where
  isLeader : Bool
  totalNodes : Nat
  deriving Repr, DecidableEq

/-- The `for await` loop of `isChallengeLeader`: counts the enumerated nodes
and remembers the first node's `name` (set when `totalCount === 1`). -/
def electLoop : List NodeIdentity → Nat → Option String → Nat × Option String
  | [], totalCount, firstNodeName => (totalCount, firstNodeName)
  | hdbNode :: rest, totalCount, firstNodeName =>
    let totalCount' := totalCount + 1
    let firstNodeName' := if totalCount' = 1 then some hdbNode.name else firstNodeName
    electLoop rest totalCount' firstNodeName'

/-- `isChallengeLeader()`: enumerate `hdb_nodes`; leader iff the enumeration is
empty, or `replication.hostname` equals the first node's name. -/
def isChallengeLeader (hostname : String) (hdbNodes : List NodeIdentity) : ElectionResult :=
  let res := electLoop hdbNodes 0 none
  let totalCount := res.1
  let firstNodeName := res.2
  let isLeader :=
    if totalCount = 0 then true
    else if firstNodeName = some hostname then true
    else false
  { isLeader := isLeader, totalNodes := totalCount }

/-! ## Challenge Responder (the `server.http` middleware) -/

structure HttpRequest where
  url : String
  deriving Repr, DecidableEq

/-- JS `String.prototype.split` with a single-character separator, over the
string's character list: `"" → [""]`, `"/x" → ["", "x"]`. -/
def splitCharList (sep : Char) : List Char → List (List Char)
  | [] => [[]]
  | c :: rest =>
    if c = sep then [] :: splitCharList sep rest
    else
      match splitCharList sep rest with
      | [] => [[c]]
      | l :: ls => (c :: l) :: ls

/-- `request.url.split('/')`. -/
def jsSplit (s : String) (sep : Char) : List String :=
  (splitCharList sep s.data).map List.asString

/-- `s.startsWith(p)`. -/
def jsStartsWith (s p : String) : Bool :=
  p.data.isPrefixOf s.data

/-- What the middleware does with a request: answer it itself, or forward the
(unchanged) request to the next handler in the chain. -/
inductive HttpResult where
  | response (status : Nat) (body : String)
  | nextHandler (request : HttpRequest)
  deriving Repr, DecidableEq

/-- The `server.http` middleware: on a URL starting with `/.well-known/` that
splits into exactly 4 `/`-separated parts, look up records whose
`challengeToken` equals the last part and answer 200 with the first non-empty
`challengeContent`; in every other case forward the request unchanged. -/
def middleware (records : List DomainRecord) (request : HttpRequest) : HttpResult :=
  if jsStartsWith request.url "/.well-known/" then
    let pathParts := jsSplit request.url '/'
    if pathParts.length ≠ 4 then .nextHandler request
    else
      -- `tables.ChallengeCertificate.search` on challengeToken equals pathParts[3],
      -- then the for-await loop returns on the first truthy challengeContent.
      match (records.filter fun r => r.challengeToken = some (pathParts.getD 3 ""))
          |>.find? (fun r => jsTruthyStr r.challengeContent) with
      | some challenge => .response 200 (challenge.challengeContent.getD "")
      | none => .nextHandler request
  else .nextHandler request

/-! ## Retry Policy (`performHttpChallengeWithRetry`) -/

def maxRetries : Nat := 5

def delayInterval : Nat := 120000  -- 2 minutes

/-- Observable outcome of one call to `performHttpChallengeWithRetry`.
The JS function is `async` and every throw of the wrapped operation is
caught inside the loop, so the promise it returns always resolves; this is
reflected in the outcome being a plain structure with no error channel.
`returned` is the promise's resolution value: the success branch is a bare
`return;`, i.e. `undefined` (`none`). -/
structure RetryOutcome where
  attempts : Nat
  delays : List Nat
  returned : Option String
  loggedFinalError : Option String
  deriving Repr, DecidableEq

/-- The `for (let attempt = 0; attempt <= maxRetries; attempt++)` loop.
`op k` is the outcome of `await performHttpChallenge(domain)` on the k-th
iteration: `.ok cert` resolves, `.error e` rejects with error `e`.
`fuel` is a structural bound on the remaining iterations; it is always
called with `fuel ≥ maxRetries + 1 - attempt`, so the loop exit is decided
by the `attempt ≤ maxRetries` guard exactly as in the source. -/
def retryLoopFrom (op : Nat → Except String String) (attempt : Nat) : Nat → RetryOutcome
  | 0 => { attempts := 0, delays := [], returned := none, loggedFinalError := none }
  | fuel + 1 =>
    if attempt ≤ maxRetries then
      match op attempt with
      | .ok _cert =>
        -- `return; // Success` resolves the promise with undefined
        { attempts := 1, delays := [], returned := none, loggedFinalError := none }
      | .error e =>
        -- `lastError = error;`
        if attempt < maxRetries then
          let delay := delayInterval * 2 ^ attempt
          let rest := retryLoopFrom op (attempt + 1) fuel
          { attempts := rest.attempts + 1, delays := delay :: rest.delays,
            returned := rest.returned, loggedFinalError := rest.loggedFinalError }
        else
          -- logs `lastError` (= e, just assigned); the loop then exits
          let rest := retryLoopFrom op (attempt + 1) fuel
          { attempts := rest.attempts + 1, delays := rest.delays,
            returned := rest.returned, loggedFinalError := some e }
    else
      { attempts := 0, delays := [], returned := none, loggedFinalError := none }

/-- `performHttpChallengeWithRetry(domain, initialDelay)` after the optional
initial sleep (which performs no attempt and is not modelled in the outcome). -/
def performHttpChallengeWithRetry (op : Nat → Except String String) : RetryOutcome :=
  retryLoopFrom op 0 (maxRetries + 1)

/-! ## Certificate Issuer (`performHttpChallenge`) -/

/-- An ACME challenge object (only the fields the code reads). -/
structure Challenge where
  type : String
  token : String
  deriving Repr, DecidableEq

/-- An ACME authorization: carries its list of challenges. -/
structure Authorization where
  challenges : List Challenge
  deriving Repr, DecidableEq

/-- One observable side effect of `performHttpChallenge`, in program order:
record-store writes, external protocol calls, and sleeps. A call that throws
is still recorded (it was made); nothing after it is. -/
inductive Effect where
  | createAccount
  | createCsr
  | createOrder
  | getAuthorizations
  | getKeyAuthorization (token : String)
  | patchChallenge (domain token content : String)
  | sleep (ms : Nat)
  | completeChallenge (token : String)
  | waitChallengeValid (token : String)
  | finalizeOrder
  | waitOrderValid
  | getOrder
  | getCertificate
  | putIssued (domain : String) (issueDate renewalDate : Nat)
  | installCertificate (cert : String)
  deriving Repr, DecidableEq

/-- Outcomes of the external calls made during one `performHttpChallenge`
invocation: the acme-client session and the record store. Each field is the
result that `await`-ing the corresponding call produces. -/
structure AcmeEnv where
  createAccount : Except String Unit
  createCsr : Except String (String × String)  -- (privateKey, csr)
  createOrder : Except String Unit
  getAuthorizations : Except String (List Authorization)
  getChallengeKeyAuthorization : Challenge → Except String String
  patchChallengeResult : Challenge → Except String Unit
  completeChallenge : Challenge → Except String Unit
  waitForValidStatusChallenge : Challenge → Except String Unit
  finalizeOrder : Except String Unit
  waitForValidStatusOrder : Except String Unit
  getOrder : Except String Unit
  getCertificate : Except String String
  getCertificateFinalized : Except String String
  putIssuedResult : Except String Unit
  installCertificate : String → Except String Unit
  now : Nat  -- `new Date()` at the final write, as an abstract day count

/-- The `for (const authz of authorizations)` loop: find the http-01
challenge, fetch its key authorization, patch the record with
token/content, sleep 60s, complete the challenge and wait for validity.
Returns the loop's outcome and its effect trace. -/
def challengeLoop (env : AcmeEnv) (domain : String) :
    List Authorization → Except String Unit × List Effect
  | [] => (.ok (), [])
  | authz :: rest =>
    match authz.challenges.find? (fun c => c.type = "http-01") with
    | none => (.error ("No HTTP-01 challenge available for " ++ domain), [])
    | some httpChallenge =>
      match env.getChallengeKeyAuthorization httpChallenge with
      | .error e => (.error e, [.getKeyAuthorization httpChallenge.token])
      | .ok keyAuthorization =>
        match env.patchChallengeResult httpChallenge with
        | .error e =>
          -- the store call threw: no write was applied
          (.error e, [.getKeyAuthorization httpChallenge.token])
        | .ok _ =>
          let pre : List Effect :=
            [.getKeyAuthorization httpChallenge.token,
             .patchChallenge domain httpChallenge.token keyAuthorization,
             .sleep 60000]
          match env.completeChallenge httpChallenge with
          | .error e => (.error e, pre ++ [.completeChallenge httpChallenge.token])
          | .ok _ =>
            match env.waitForValidStatusChallenge httpChallenge with
            | .error e => (.error e,
                pre ++ [.completeChallenge httpChallenge.token,
                        .waitChallengeValid httpChallenge.token])
            | .ok _ =>
              ((challengeLoop env domain rest).1,
               pre ++ [.completeChallenge httpChallenge.token,
                       .waitChallengeValid httpChallenge.token]
                 ++ (challengeLoop env domain rest).2)

/-- The certificate-retrieval step after `finalizeOrder`: for renewals, wait
for the order to be valid, pause 1 s, re-fetch the order and get the
certificate from the re-fetched order; otherwise get the certificate from
the original order directly. -/
def certFetchStep (env : AcmeEnv) (renewal : Bool) : Except String String × List Effect :=
  if renewal then
    match env.waitForValidStatusOrder with
    | .error e => (.error e, [.waitOrderValid])
    | .ok _ =>
      match env.getOrder with
      | .error e => (.error e, [.waitOrderValid, .sleep 1000, .getOrder])
      | .ok _ =>
        (env.getCertificateFinalized,
         [.waitOrderValid, .sleep 1000, .getOrder, .getCertificate])
  else (env.getCertificate, [.getCertificate])

/-- `performHttpChallenge(domain, renewal)`: the whole issuance attempt.
Returns the settled result of the promise (`.ok cert` or the propagated
error — the catch block only logs and rethrows) together with the effect
trace. -/
def performHttpChallenge (env : AcmeEnv) (domain : String) (renewal : Bool) :
    Except String String × List Effect :=
  match env.createAccount with
  | .error e => (.error e, [.createAccount])
  | .ok _ =>
    match env.createCsr with
    | .error e => (.error e, [.createAccount, .createCsr])
    | .ok _pkCsr =>  -- `[privateKey, csr]` destructured; the values feed later calls

      match env.createOrder with
      | .error e => (.error e, [.createAccount, .createCsr, .createOrder])
      | .ok _order =>
        match env.getAuthorizations with
        | .error e => (.error e, [.createAccount, .createCsr, .createOrder, .getAuthorizations])
        | .ok authorizations =>
          let head : List Effect := [.createAccount, .createCsr, .createOrder, .getAuthorizations]
          match (challengeLoop env domain authorizations).1 with
          | .error e => (.error e, head ++ (challengeLoop env domain authorizations).2)
          | .ok _ =>
            match env.finalizeOrder with
            | .error e =>
              (.error e, head ++ (challengeLoop env domain authorizations).2 ++ [.finalizeOrder])
            | .ok _ =>
              match (certFetchStep env renewal).1 with
              | .error e =>
                (.error e, head ++ (challengeLoop env domain authorizations).2
                  ++ [.finalizeOrder] ++ (certFetchStep env renewal).2)
              | .ok cert =>
                let now := env.now
                let renewalDate := now + 60  -- setDate(getDate() + 60)
                let preCert := head ++ (challengeLoop env domain authorizations).2
                  ++ [Effect.finalizeOrder] ++ (certFetchStep env renewal).2
                match env.putIssuedResult with
                | .error e =>
                  -- the store call threw: no write was applied
                  (.error e, preCert)
                | .ok _ =>
                  match env.installCertificate cert with
                  | .error e =>
                    (.error e, preCert ++ [.putIssued domain now renewalDate,
                                           .installCertificate cert])
                  | .ok _ =>
                    (.ok cert, preCert ++ [.putIssued domain now renewalDate,
                                           .installCertificate cert])

/-! ## Record-store semantics of the issuer's writes -/

/-- Is this effect a record-store write? -/
def Effect.isWrite : Effect → Bool
  | .patchChallenge _ _ _ => true
  | .putIssued _ _ _ => true
  | _ => false

/-- Apply one effect to a domain record. `patch` updates only the named
attributes; `put` replaces the whole row. Non-write effects leave the
record unchanged. -/
def applyEffect (r : DomainRecord) : Effect → DomainRecord
  | .patchChallenge _ token content =>
    { r with challengeToken := some token, challengeContent := some content }
  | .putIssued domain issueDate renewalDate =>
    { domain := domain, issueDate := some issueDate, renewalDate := some renewalDate,
      challengeToken := none, challengeContent := none, inProgress := false }
  | _ => r

/-- Apply a trace of effects, left to right. -/
def applyEffects (r : DomainRecord) (tr : List Effect) : DomainRecord :=
  tr.foldl applyEffect r

/-- All record-store writes in `l` are challenge patches for `domain`. -/
def onlyDomainPatches (domain : String) (l : List Effect) : Prop :=
  ∀ w ∈ l, w.isWrite = true → ∃ t c, w = Effect.patchChallenge domain t c

/-- Boolean checker for `onlyDomainPatches`. -/
def onlyDomainPatchesB (domain : String) (l : List Effect) : Bool :=
  l.all fun w => !w.isWrite ||
    (match w with
     | .patchChallenge d _ _ => d == domain
     | _ => false)

/-- A sample all-successful environment with one authorization carrying an
http-01 challenge, used for concrete runs of the issuer. -/
def sampleEnv : AcmeEnv where
  createAccount := .ok ()
  createCsr := .ok ("pk", "csr")
  createOrder := .ok ()
  getAuthorizations := .ok [{ challenges := [{ type := "http-01", token := "tok" }] }]
  getChallengeKeyAuthorization := fun c => .ok (c.token ++ ".keyauth")
  patchChallengeResult := fun _ => .ok ()
  completeChallenge := fun _ => .ok ()
  waitForValidStatusChallenge := fun _ => .ok ()
  finalizeOrder := .ok ()
  waitForValidStatusOrder := .ok ()
  getOrder := .ok ()
  getCertificate := .ok "PEMCERT"
  getCertificateFinalized := .ok "PEMCERT"
  putIssuedResult := .ok ()
  installCertificate := fun _ => .ok ()
  now := 20000

/-- `sampleEnv` with a failing certificate-installation operation. -/
def sampleEnvInstallFail : AcmeEnv :=
  { sampleEnv with installCertificate := fun _ => .error "EACCES" }

/-- `sampleEnv` with a failing account-creation call. -/
def sampleEnvAcctFail : AcmeEnv :=
  { sampleEnv with createAccount := .error "down" }

/-! ## Lifecycle Orchestrator: subscription handler and renewal scan -/

/-- The payload of a change-feed event, `event.value` (possibly absent;
each field possibly undefined, matching the `event.value?.field` reads). -/
structure EventValue where
  domain : Option String := none
  challengeToken : Option String := none
  issueDate : Option Nat := none
  inProgress : Option Bool := none
  deriving Repr, DecidableEq

/-- An action the orchestrator takes while handling one trigger. -/
inductive OrchestratorEffect where
  /-- `tables.ChallengeCertificate.patch({domain, inProgress: true})` -/
  | patchInProgress (domain : String)
  /-- fire-and-forget `performHttpChallengeWithRetry(domain, initialDelay)` -/
  | fireRetryIssuance (domain : String) (initialDelay : Int)
  /-- awaited direct `performHttpChallenge(domain, renewal)` -/
  | performIssueDirect (domain : String) (renewal : Bool)
  deriving Repr, DecidableEq

/-- The body of `startSubscription`'s per-event processing. The leadership
check `await isChallengeLeader()` is parametrised by its result (it is only
consulted on the new-domain path). Returns the actions taken, in order. -/
def handleEvent (leaderResult : ElectionResult) (value : Option EventValue) :
    List OrchestratorEffect :=
  let domain := value.bind EventValue.domain
  let challengeToken := value.bind EventValue.challengeToken
  let issueDate := value.bind EventValue.issueDate
  let inProgress := value.bind EventValue.inProgress
  if !jsTruthyStr domain then []  -- `if (!domain) continue;`
  else
    if !jsTruthyStr challengeToken && !jsTruthyDate issueDate && !jsTruthyBool inProgress then
      if leaderResult.isLeader then
        let initialDelay : Int := ((leaderResult.totalNodes : Int) - 1) * 60000
        [.patchInProgress (domain.getD ""), .fireRetryIssuance (domain.getD "") initialDelay]
      else []
    else []

/-- One iteration of the renewal-scan loop body, for one record returned by
the `renewalDate less_than now` search: elect leadership; if leader, patch
`inProgress: true` and run `performHttpChallenge(domain, true)` directly. -/
def renewalScanStep (leaderResult : ElectionResult) (challengeDomain : DomainRecord) :
    List OrchestratorEffect :=
  if leaderResult.isLeader then
    [.patchInProgress challengeDomain.domain, .performIssueDirect challengeDomain.domain true]
  else []

/-- The whole 12-hour renewal scan: search for records whose `renewalDate` is
in the past (records with no `renewalDate` do not match the comparator) and
run the loop body on each. The leadership result is re-read per record; it is
modelled as stable within one scan. -/
def renewalScan (leaderResult : ElectionResult) (records : List DomainRecord) (now : Nat) :
    List OrchestratorEffect :=
  ((records.filter fun r =>
      match r.renewalDate with
      | some d => d < now
      | none => false)).flatMap (renewalScanStep leaderResult)

/-! ## Lemmas about leader election -/

lemma electLoop_fst (ns : List NodeIdentity) :
    ∀ c f, (electLoop ns c f).1 = c + ns.length := by
  induction ns with
  | nil => intro c f; simp [electLoop]
  | cons n rest ih =>
    intro c f
    simp only [electLoop]
    rw [ih]
    simp
    omega

lemma electLoop_snd_pos (ns : List NodeIdentity) :
    ∀ c f, 0 < c → (electLoop ns c f).2 = f := by
  induction ns with
  | nil => intro c f _; simp [electLoop]
  | cons n rest ih =>
    intro c f hc
    simp only [electLoop]
    rw [if_neg (by omega)]
    exact ih _ _ (by omega)

lemma electLoop_zero (n : NodeIdentity) (rest : List NodeIdentity) :
    electLoop (n :: rest) 0 none = (rest.length + 1, some n.name) := by
  have h1 := electLoop_fst (n :: rest) 0 none
  have h2 : (electLoop (n :: rest) 0 none).2 = some n.name := by
    simp only [electLoop]
    exact electLoop_snd_pos rest (0 + 1) _ (by omega)
  rw [Prod.ext_iff]
  refine ⟨?_, h2⟩
  rw [h1]
  simp

lemma isChallengeLeader_nil (hostname : String) :
    isChallengeLeader hostname [] = { isLeader := true, totalNodes := 0 } := rfl

lemma isChallengeLeader_cons (hostname : String) (n : NodeIdentity) (rest : List NodeIdentity) :
    isChallengeLeader hostname (n :: rest) =
      { isLeader := n.name = hostname, totalNodes := rest.length + 1 } := by
  unfold isChallengeLeader
  rw [electLoop_zero]
  simp

/-- C1: `isChallengeLeader` returns `totalNodes` equal to the number of
enumerated node identities, and `isLeader = true` iff the enumeration is
empty or the configured hostname equals the first enumerated identity's
name; for a fixed non-empty enumeration with pairwise-distinct names, at
most one hostname value is elected leader. -/
theorem isChallengeLeader_spec (hostname : String) (nodes : List NodeIdentity) :
    (isChallengeLeader hostname nodes).totalNodes = nodes.length ∧
    ((isChallengeLeader hostname nodes).isLeader = true ↔
      nodes = [] ∨ nodes.head?.map NodeIdentity.name = some hostname) ∧
    (nodes ≠ [] → nodes.Pairwise (fun a b => a.name ≠ b.name) →
      ∀ h₁ h₂ : String, (isChallengeLeader h₁ nodes).isLeader = true →
        (isChallengeLeader h₂ nodes).isLeader = true → h₁ = h₂) := by
  cases nodes with
  | nil => simp [isChallengeLeader_nil]
  | cons n rest =>
    refine ⟨?_, ?_, ?_⟩
    · simp [isChallengeLeader_cons]
    · simp [isChallengeLeader_cons]
    · intro _ _ h₁ h₂ e₁ e₂
      simp [isChallengeLeader_cons] at e₁ e₂
      rw [← e₁, ← e₂]

/-- Witness for C1 at a concrete cluster: two distinct nodes, hostname
matching the first; the uniqueness conjunct applied to itself. -/
theorem isChallengeLeader_spec_witness :
    (isChallengeLeader "node-a" [⟨"node-a"⟩, ⟨"node-b"⟩]).totalNodes = 2 ∧
    ("node-a" : String) = "node-a" := by
  refine ⟨(isChallengeLeader_spec "node-a" [⟨"node-a"⟩, ⟨"node-b"⟩]).1, ?_⟩
  exact (isChallengeLeader_spec "node-a" [⟨"node-a"⟩, ⟨"node-b"⟩]).2.2
    (by decide) (by decide) "node-a" "node-a" (by decide) (by decide)

/-! ## Lemmas about the retry loop -/

lemma retryLoopFrom_zero (op : Nat → Except String String) (a : Nat) :
    retryLoopFrom op a 0 =
      { attempts := 0, delays := [], returned := none, loggedFinalError := none } := rfl

lemma retryLoopFrom_exit (op : Nat → Except String String) (a f : Nat)
    (h : ¬ a ≤ maxRetries) :
    retryLoopFrom op a (f + 1) =
      { attempts := 0, delays := [], returned := none, loggedFinalError := none } := by
  simp [retryLoopFrom, h]

lemma retryLoopFrom_succ_ok (op : Nat → Except String String) (a f : Nat) (c : String)
    (ha : a ≤ maxRetries) (hop : op a = .ok c) :
    retryLoopFrom op a (f + 1) =
      { attempts := 1, delays := [], returned := none, loggedFinalError := none } := by
  simp [retryLoopFrom, hop, ha]

lemma retryLoopFrom_succ_err_lt (op : Nat → Except String String) (a f : Nat) (e : String)
    (hlt : a < maxRetries) (hop : op a = .error e) :
    retryLoopFrom op a (f + 1) =
      { attempts := (retryLoopFrom op (a + 1) f).attempts + 1,
        delays := delayInterval * 2 ^ a :: (retryLoopFrom op (a + 1) f).delays,
        returned := (retryLoopFrom op (a + 1) f).returned,
        loggedFinalError := (retryLoopFrom op (a + 1) f).loggedFinalError } := by
  simp [retryLoopFrom, hop, le_of_lt hlt, hlt]

lemma retryLoopFrom_succ_err_last (op : Nat → Except String String) (f : Nat) (e : String)
    (hop : op maxRetries = .error e) :
    retryLoopFrom op maxRetries (f + 1) =
      { attempts := (retryLoopFrom op (maxRetries + 1) f).attempts + 1,
        delays := (retryLoopFrom op (maxRetries + 1) f).delays,
        returned := (retryLoopFrom op (maxRetries + 1) f).returned,
        loggedFinalError := some e } := by
  simp [retryLoopFrom, hop]

lemma retryLoopFrom_attempts_le (op : Nat → Except String String) :
    ∀ fuel attempt, (retryLoopFrom op attempt fuel).attempts ≤ fuel := by
  intro fuel
  induction fuel with
  | zero => intro a; simp [retryLoopFrom_zero]
  | succ f ih =>
    intro a
    by_cases h : a ≤ maxRetries
    · cases hop : op a with
      | ok c => simp [retryLoopFrom_succ_ok op a f c h hop]
      | error e =>
        by_cases hlt : a < maxRetries
        · rw [retryLoopFrom_succ_err_lt op a f e hlt hop]
          have := ih (a + 1)
          simp
          omega
        · have haeq : a = maxRetries := by omega
          subst haeq
          rw [retryLoopFrom_succ_err_last op f e hop]
          have := ih (maxRetries + 1)
          simp
          omega
    · simp [retryLoopFrom_exit op a f h]

lemma retryLoopFrom_returned_none (op : Nat → Except String String) :
    ∀ fuel attempt, (retryLoopFrom op attempt fuel).returned = none := by
  intro fuel
  induction fuel with
  | zero => intro a; simp [retryLoopFrom_zero]
  | succ f ih =>
    intro a
    by_cases h : a ≤ maxRetries
    · cases hop : op a with
      | ok c => simp [retryLoopFrom_succ_ok op a f c h hop]
      | error e =>
        by_cases hlt : a < maxRetries
        · rw [retryLoopFrom_succ_err_lt op a f e hlt hop]
          simpa using ih (a + 1)
        · have haeq : a = maxRetries := by omega
          subst haeq
          rw [retryLoopFrom_succ_err_last op f e hop]
          simpa using ih (maxRetries + 1)
    · simp [retryLoopFrom_exit op a f h]

lemma retryLoopFrom_attempts_pos (op : Nat → Except String String)
    (fuel attempt : Nat) (hf : 0 < fuel) (ha : attempt ≤ maxRetries) :
    1 ≤ (retryLoopFrom op attempt fuel).attempts := by
  cases fuel with
  | zero => omega
  | succ f =>
    cases hop : op attempt with
    | ok c => simp [retryLoopFrom_succ_ok op attempt f c ha hop]
    | error e =>
      by_cases hlt : attempt < maxRetries
      · rw [retryLoopFrom_succ_err_lt op attempt f e hlt hop]; simp
      · have haeq : attempt = maxRetries := by omega
        subst haeq
        rw [retryLoopFrom_succ_err_last op f e hop]; simp

lemma retryLoopFrom_delays (op : Nat → Except String String) :
    ∀ fuel attempt, maxRetries + 1 ≤ attempt + fuel →
      (retryLoopFrom op attempt fuel).delays =
        (List.range ((retryLoopFrom op attempt fuel).attempts - 1)).map
          (fun k => delayInterval * 2 ^ (attempt + k)) := by
  intro fuel
  induction fuel with
  | zero => intro a _; simp [retryLoopFrom_zero]
  | succ f ih =>
    intro a hle
    by_cases h : a ≤ maxRetries
    · cases hop : op a with
      | ok c => simp [retryLoopFrom_succ_ok op a f c h hop]
      | error e =>
        by_cases hlt : a < maxRetries
        · rw [retryLoopFrom_succ_err_lt op a f e hlt hop]
          have hrec := ih (a + 1) (by omega)
          have hpos := retryLoopFrom_attempts_pos op f (a + 1) (by omega) (by omega)
          obtain ⟨m, hm⟩ : ∃ m, (retryLoopFrom op (a + 1) f).attempts = m + 1 :=
            ⟨(retryLoopFrom op (a + 1) f).attempts - 1, by omega⟩
          simp only [hrec, hm]
          simp only [Nat.add_sub_cancel, List.range_succ_eq_map, List.map_cons,
            List.map_map]
          refine congrArg₂ List.cons (by simp) ?_
          refine List.map_congr_left fun k _ => ?_
          have hexp : a + 1 + k = a + (k + 1) := by omega
          simp [Function.comp, hexp]
        · have haeq : a = maxRetries := by omega
          subst haeq
          rw [retryLoopFrom_succ_err_last op f e hop]
          have hzero : (retryLoopFrom op (maxRetries + 1) f).attempts = 0 := by
            cases f with
            | zero => simp [retryLoopFrom_zero]
            | succ f' => simp [retryLoopFrom_exit op (maxRetries + 1) f' (by omega)]
          have hdzero : (retryLoopFrom op (maxRetries + 1) f).delays = [] := by
            cases f with
            | zero => simp [retryLoopFrom_zero]
            | succ f' => simp [retryLoopFrom_exit op (maxRetries + 1) f' (by omega)]
          simp [hzero, hdzero]
    · simp [retryLoopFrom_exit op a f h]

lemma retryLoopFrom_allfail (op : Nat → Except String String) :
    ∀ fuel attempt, maxRetries + 1 = attempt + fuel → 0 < fuel →
      (∀ j, attempt ≤ j → j ≤ maxRetries → ∀ c, op j ≠ .ok c) →
      (retryLoopFrom op attempt fuel).attempts = fuel ∧
      (∃ e, op maxRetries = .error e ∧
        (retryLoopFrom op attempt fuel).loggedFinalError = some e) := by
  intro fuel
  induction fuel with
  | zero => intro a _ hf; omega
  | succ f ih =>
    intro a heq _ hfail
    have ha : a ≤ maxRetries := by omega
    have hofail : ∀ c, op a ≠ .ok c := hfail a (le_refl a) ha
    cases hop : op a with
    | ok c => exact absurd hop (hofail c)
    | error e =>
      by_cases hlt : a < maxRetries
      · rw [retryLoopFrom_succ_err_lt op a f e hlt hop]
        have hrec := ih (a + 1) (by omega) (by omega)
          (fun j hj hj' c => hfail j (by omega) hj' c)
        obtain ⟨hatt, e', he', hlog⟩ := hrec
        exact ⟨by simp [hatt], e', he', by simpa using hlog⟩
      · have haeq : a = maxRetries := by omega
        have hf0 : f = 0 := by omega
        subst haeq hf0
        rw [retryLoopFrom_succ_err_last op 0 e hop]
        exact ⟨by simp [retryLoopFrom_zero], e, hop, by simp⟩

lemma retryLoopFrom_success (op : Nat → Except String String) :
    ∀ fuel attempt k c, attempt ≤ k → k ≤ maxRetries → k < attempt + fuel →
      op k = .ok c → (∀ j, attempt ≤ j → j < k → ∀ c', op j ≠ .ok c') →
      (retryLoopFrom op attempt fuel).attempts = k - attempt + 1 := by
  intro fuel
  induction fuel with
  | zero => intro a k c hak _ hlt; omega
  | succ f ih =>
    intro a k c hak hk hlt hop hbefore
    have ha : a ≤ maxRetries := le_trans hak hk
    rcases Nat.eq_or_lt_of_le hak with heq | hout
    · subst heq
      rw [retryLoopFrom_succ_ok op a f c ha hop]
      simp
    · have hofail : ∀ c', op a ≠ .ok c' := hbefore a (le_refl a) hout
      cases hopa : op a with
      | ok c' => exact absurd hopa (hofail c')
      | error e =>
        have hltmax : a < maxRetries := by omega
        rw [retryLoopFrom_succ_err_lt op a f e hltmax hopa]
        have hrec := ih (a + 1) k c (by omega) hk (by omega) hop
          (fun j hj hj' c'' => hbefore j (by omega) hj' c'')
        simp [hrec]
        omega

/-- C2: the retry wrapper makes at most `maxRetries + 1 = 6` attempts; its
delay sequence is exactly `120000 * 2^k` between failed attempts `k` and
`k+1`; when every attempt fails it makes all 6 attempts with precisely the
five delays 120000..1920000 ms and none after the last; a first success at
attempt `k` stops the loop with `k + 1` attempts made. -/
theorem retry_backoff_schedule (op : Nat → Except String String) :
    (performHttpChallengeWithRetry op).attempts ≤ maxRetries + 1 ∧
    (performHttpChallengeWithRetry op).delays =
      (List.range ((performHttpChallengeWithRetry op).attempts - 1)).map
        (fun k => delayInterval * 2 ^ k) ∧
    ((∀ j, j ≤ maxRetries → ∀ c, op j ≠ .ok c) →
      (performHttpChallengeWithRetry op).attempts = maxRetries + 1 ∧
      (performHttpChallengeWithRetry op).delays =
        [120000, 240000, 480000, 960000, 1920000]) ∧
    (∀ k c, k ≤ maxRetries → op k = .ok c →
      (∀ j, j < k → ∀ c', op j ≠ .ok c') →
      (performHttpChallengeWithRetry op).attempts = k + 1) := by
  have hdel : (performHttpChallengeWithRetry op).delays =
      (List.range ((performHttpChallengeWithRetry op).attempts - 1)).map
        (fun k => delayInterval * 2 ^ k) := by
    have := retryLoopFrom_delays op (maxRetries + 1) 0 (by omega)
    simpa [performHttpChallengeWithRetry] using this
  refine ⟨retryLoopFrom_attempts_le op (maxRetries + 1) 0, hdel, ?_, ?_⟩
  · intro hfail
    have h := retryLoopFrom_allfail op (maxRetries + 1) 0 (by omega) (by omega)
      (fun j _ hj c => hfail j hj c)
    have h1 : (performHttpChallengeWithRetry op).attempts = maxRetries + 1 := h.1
    refine ⟨h1, ?_⟩
    rw [hdel, h1]
    rfl
  · intro k c hk hop hbefore
    have := retryLoopFrom_success op (maxRetries + 1) 0 k c (Nat.zero_le k) hk
      (by omega) hop (fun j _ hj c' => hbefore j hj c')
    simpa [performHttpChallengeWithRetry] using this

/-- Witness for C2: with every attempt failing, the wrapper makes exactly 6
attempts with the full 5-element backoff schedule. -/
theorem retry_backoff_schedule_witness :
    (performHttpChallengeWithRetry fun _ => Except.error "boom").attempts = maxRetries + 1 ∧
    (performHttpChallengeWithRetry fun _ => Except.error "boom").delays =
      [120000, 240000, 480000, 960000, 1920000] :=
  (retry_backoff_schedule fun _ => Except.error "boom").2.2.1
    (fun _ _ _ h => Except.noConfusion h)

/-- C9 counterexample: the wrapped operation succeeds on the first attempt
with certificate "cert", yet `performHttpChallengeWithRetry` resolves with
`undefined` (`none`) — the success branch is a bare `return;` — so the
operation's result is not returned to the caller. -/
theorem retry_result_discarded_cex :
    (fun _ : Nat => (Except.ok "cert" : Except String String)) 0 = Except.ok "cert" ∧
    (performHttpChallengeWithRetry fun _ : Nat =>
        (Except.ok "cert" : Except String String)).returned ≠ some "cert" := by
  exact ⟨rfl, by decide⟩

/-- C9 amended: when the wrapped operation first succeeds at attempt `k`,
the retry wrapper stops the loop immediately — exactly `k + 1` attempts and
`k` backoff delays — but resolves with `undefined` (`none`), discarding the
successful operation's result rather than returning it. -/
theorem retry_success_stops_immediately (op : Nat → Except String String)
    (k : Nat) (c : String) (hk : k ≤ maxRetries) (hop : op k = .ok c)
    (hbefore : ∀ j, j < k → ∀ c', op j ≠ .ok c') :
    (performHttpChallengeWithRetry op).attempts = k + 1 ∧
    (performHttpChallengeWithRetry op).delays.length = k ∧
    (performHttpChallengeWithRetry op).returned = none := by
  have hatt : (performHttpChallengeWithRetry op).attempts = k + 1 := by
    have := retryLoopFrom_success op (maxRetries + 1) 0 k c (Nat.zero_le k) hk
      (by omega) hop (fun j _ hj c' => hbefore j hj c')
    simpa [performHttpChallengeWithRetry] using this
  refine ⟨hatt, ?_, retryLoopFrom_returned_none op (maxRetries + 1) 0⟩
  have hdel := retryLoopFrom_delays op (maxRetries + 1) 0 (by omega)
  have : (performHttpChallengeWithRetry op).delays =
      (List.range ((performHttpChallengeWithRetry op).attempts - 1)).map
        (fun j => delayInterval * 2 ^ (0 + j)) := hdel
  rw [this, hatt]
  simp

/-- Witness for C9's amended theorem: success on the very first attempt gives
one attempt, no delays, and resolution value `none`. -/
theorem retry_success_stops_immediately_witness :
    (performHttpChallengeWithRetry fun _ : Nat =>
        (Except.ok "c" : Except String String)).attempts = 0 + 1 ∧
    (performHttpChallengeWithRetry fun _ : Nat =>
        (Except.ok "c" : Except String String)).delays.length = 0 ∧
    (performHttpChallengeWithRetry fun _ : Nat =>
        (Except.ok "c" : Except String String)).returned = none :=
  retry_success_stops_immediately (fun _ => Except.ok "c") 0 "c" (by decide) rfl
    (fun j hj _ => absurd hj (by omega))

/-- C10: `performHttpChallengeWithRetry` never rejects — its outcome is a
total value with no error channel and its resolution value is always
`undefined` (`none`) — and when every one of the `maxRetries + 1` attempts
fails it logs the last error and still resolves normally. -/
theorem retry_never_rejects (op : Nat → Except String String) :
    (performHttpChallengeWithRetry op).returned = none ∧
    ((∀ j, j ≤ maxRetries → ∀ c, op j ≠ .ok c) →
      (performHttpChallengeWithRetry op).attempts = maxRetries + 1 ∧
      ∃ e, op maxRetries = .error e ∧
        (performHttpChallengeWithRetry op).loggedFinalError = some e) := by
  refine ⟨retryLoopFrom_returned_none op (maxRetries + 1) 0, ?_⟩
  intro hfail
  exact retryLoopFrom_allfail op (maxRetries + 1) 0 (by omega) (by omega)
    (fun j _ hj c => hfail j hj c)

/-- Witness for C10: with every attempt failing with "down", the wrapper
resolves with `none`, makes 6 attempts, and logs "down" as the final error. -/
theorem retry_never_rejects_witness :
    (performHttpChallengeWithRetry fun _ : Nat =>
        (Except.error "down" : Except String String)).returned = none ∧
    (performHttpChallengeWithRetry fun _ : Nat =>
        (Except.error "down" : Except String String)).attempts = maxRetries + 1 ∧
    ∃ e, (fun _ : Nat => (Except.error "down" : Except String String)) maxRetries
        = Except.error e ∧
      (performHttpChallengeWithRetry fun _ : Nat =>
          (Except.error "down" : Except String String)).loggedFinalError = some e := by
  have h := retry_never_rejects fun _ : Nat => (Except.error "down" : Except String String)
  exact ⟨h.1, h.2 (fun _ _ _ hc => Except.noConfusion hc)⟩

/-! ## Theorems about the challenge responder -/

/-- C4: on a request whose URL is under the well-known prefix and splits into
exactly the expected 4 segments, if some stored record's `challengeToken`
equals the last segment and that record's `challengeContent` is non-empty,
the middleware answers 200 with that content; if no such record exists (or
its content is empty) it forwards the request unchanged to the next
handler. -/
theorem middleware_challenge_response (records : List DomainRecord) (url token : String)
    (hpre : jsStartsWith url "/.well-known/" = true)
    (hlen : (jsSplit url '/').length = 4)
    (htok : (jsSplit url '/').getD 3 "" = token) :
    ((∃ r ∈ records, r.challengeToken = some token ∧ jsTruthyStr r.challengeContent = true) →
      ∃ r ∈ records, r.challengeToken = some token ∧ jsTruthyStr r.challengeContent = true ∧
        middleware records ⟨url⟩ = .response 200 (r.challengeContent.getD "")) ∧
    ((∀ r ∈ records, ¬(r.challengeToken = some token ∧ jsTruthyStr r.challengeContent = true)) →
      middleware records ⟨url⟩ = .nextHandler ⟨url⟩) := by
  have hmw : middleware records ⟨url⟩ =
      match (records.filter fun r => r.challengeToken = some token).find?
          (fun r => jsTruthyStr r.challengeContent) with
      | some challenge => .response 200 (challenge.challengeContent.getD "")
      | none => .nextHandler ⟨url⟩ := by
    simp only [middleware, hpre, htok, hlen, if_true]
    simp
  constructor
  · rintro ⟨r, hr, hrt, hrc⟩
    have hmem : r ∈ records.filter fun x => x.challengeToken = some token :=
      List.mem_filter.mpr ⟨hr, by simp [hrt]⟩
    have hsome : ((records.filter fun x => x.challengeToken = some token).find?
        (fun x => jsTruthyStr x.challengeContent)).isSome :=
      List.find?_isSome.mpr ⟨r, hmem, hrc⟩
    obtain ⟨r', hr'⟩ := Option.isSome_iff_exists.mp hsome
    have hp := List.find?_some hr'
    have hmem' := List.mem_filter.mp (List.mem_of_find?_eq_some hr')
    refine ⟨r', hmem'.1, by simpa using hmem'.2, hp, ?_⟩
    rw [hmw, hr']
  · intro hnone
    have hfind : (records.filter fun x => x.challengeToken = some token).find?
        (fun x => jsTruthyStr x.challengeContent) = none := by
      refine List.find?_eq_none.mpr fun x hx hcx => ?_
      have hx' := List.mem_filter.mp hx
      exact hnone x hx'.1 ⟨by simpa using hx'.2, hcx⟩
    rw [hmw, hfind]

/-- Witness for C4: a matching record with non-empty content is served with
status 200 and its content as body. -/
theorem middleware_challenge_response_witness :
    ∃ r ∈ [({ domain := "example.com", challengeToken := some "abc123",
              challengeContent := some "xyz" } : DomainRecord)],
      r.challengeToken = some "abc123" ∧ jsTruthyStr r.challengeContent = true ∧
        middleware [{ domain := "example.com", challengeToken := some "abc123",
                      challengeContent := some "xyz" }]
          ⟨"/.well-known/acme-challenge/abc123"⟩ =
          .response 200 (r.challengeContent.getD "") := by
  refine (middleware_challenge_response
      [{ domain := "example.com", challengeToken := some "abc123",
         challengeContent := some "xyz" }]
      "/.well-known/acme-challenge/abc123" "abc123"
      (by decide) (by decide) (by decide)).1 ?_
  exact ⟨_, List.mem_singleton.mpr rfl, rfl, by decide⟩

/-- C5 counterexample: the middleware checks only the `/.well-known/` prefix
and the segment count, not that the second segment is `acme-challenge`: the
request `/.well-known/evil/abc123` is not of the form
`/.well-known/acme-challenge/{token}`, yet with a matching token record the
middleware answers it with the challenge body instead of forwarding it. -/
theorem middleware_second_segment_cex :
    middleware [{ domain := "example.com", challengeToken := some "abc123",
                  challengeContent := some "xyz" }]
        ⟨"/.well-known/evil/abc123"⟩ = .response 200 "xyz" ∧
    jsStartsWith "/.well-known/evil/abc123" "/.well-known/acme-challenge/" = false := by
  exact ⟨by decide, by decide⟩

/-- C5 amended: the middleware intercepts only requests whose path begins
with `/.well-known/` and splits into exactly 4 segments; any request whose
path does not begin with `/.well-known/`, or has any other segment count, is
forwarded unchanged to the next handler. (Paths under `/.well-known/` with a
second segment other than `acme-challenge` but the expected segment count
are still answered when a matching record exists, as the counterexample
shows.) -/
theorem middleware_pass_through (records : List DomainRecord) (url : String)
    (h : jsStartsWith url "/.well-known/" = false ∨ (jsSplit url '/').length ≠ 4) :
    middleware records ⟨url⟩ = .nextHandler ⟨url⟩ := by
  rcases h with h | h
  · simp [middleware, h]
  · by_cases hpre : jsStartsWith url "/.well-known/"
    · simp [middleware, hpre, h]
    · simp [middleware, hpre]

/-- Witness for C5's amended theorem: a path outside `/.well-known/` passes
through unchanged. -/
theorem middleware_pass_through_witness :
    middleware [{ domain := "example.com", challengeToken := some "abc123",
                  challengeContent := some "xyz" }] ⟨"/other/abc123"⟩ =
      .nextHandler ⟨"/other/abc123"⟩ :=
  middleware_pass_through _ "/other/abc123" (Or.inl (by decide))

/-! ## Lemmas about the certificate issuer -/

lemma onlyDomainPatches_nil (domain : String) : onlyDomainPatches domain [] :=
  fun w hw => absurd hw (List.not_mem_nil w)

lemma onlyDomainPatches_append {domain : String} {l₁ l₂ : List Effect}
    (h₁ : onlyDomainPatches domain l₁) (h₂ : onlyDomainPatches domain l₂) :
    onlyDomainPatches domain (l₁ ++ l₂) := by
  intro w hw
  rcases List.mem_append.mp hw with h | h
  · exact h₁ w h
  · exact h₂ w h

lemma onlyDomainPatches_of_B (domain : String) (l : List Effect)
    (h : onlyDomainPatchesB domain l = true) : onlyDomainPatches domain l := by
  intro w hw hwrite
  have hall := List.all_eq_true.mp h w hw
  cases w
  case patchChallenge d t c =>
    refine ⟨t, c, ?_⟩
    have hd : d = domain := by
      simp [Effect.isWrite] at hall
      exact hall
    rw [hd]
  all_goals simp_all [Effect.isWrite]

lemma challengeLoop_writes (env : AcmeEnv) (domain : String) :
    ∀ auths, onlyDomainPatches domain (challengeLoop env domain auths).2 := by
  intro auths
  induction auths with
  | nil => exact onlyDomainPatches_nil domain
  | cons authz rest ih =>
    show onlyDomainPatches domain (challengeLoop env domain (authz :: rest)).2
    simp only [challengeLoop]
    cases hfind : authz.challenges.find? (fun c => c.type = "http-01") with
    | none =>
      simp only [hfind]
      exact onlyDomainPatches_nil domain
    | some httpChallenge =>
      simp only [hfind]
      cases hka : env.getChallengeKeyAuthorization httpChallenge with
      | error e =>
        simp only [hka]
        exact onlyDomainPatches_of_B domain _ (by simp [onlyDomainPatchesB, Effect.isWrite])
      | ok keyAuthorization =>
        simp only [hka]
        have hpre : onlyDomainPatches domain
            [.getKeyAuthorization httpChallenge.token,
             .patchChallenge domain httpChallenge.token keyAuthorization,
             .sleep 60000] :=
          onlyDomainPatches_of_B domain _ (by simp [onlyDomainPatchesB, Effect.isWrite])
        cases hpr : env.patchChallengeResult httpChallenge with
        | error e =>
          simp only [hpr]
          exact onlyDomainPatches_of_B domain _ (by simp [onlyDomainPatchesB, Effect.isWrite])
        | ok _ =>
          simp only [hpr]
          cases hcc : env.completeChallenge httpChallenge with
          | error e =>
            simp only [hcc]
            exact onlyDomainPatches_append hpre
              (onlyDomainPatches_of_B domain _ (by simp [onlyDomainPatchesB, Effect.isWrite]))
          | ok _ =>
            simp only [hcc]
            cases hwc : env.waitForValidStatusChallenge httpChallenge with
            | error e =>
              simp only [hwc]
              exact onlyDomainPatches_append hpre
                (onlyDomainPatches_of_B domain _ (by simp [onlyDomainPatchesB, Effect.isWrite]))
            | ok _ =>
              simp only [hwc]
              intro w hw
              rcases List.mem_cons.mp hw with rfl | hw
              · intro hwr; simp [Effect.isWrite] at hwr
              rcases List.mem_cons.mp hw with rfl | hw
              · intro _; exact ⟨httpChallenge.token, keyAuthorization, rfl⟩
              rcases List.mem_cons.mp hw with rfl | hw
              · intro hwr; simp [Effect.isWrite] at hwr
              rcases List.mem_cons.mp hw with rfl | hw
              · intro hwr; simp [Effect.isWrite] at hwr
              rcases List.mem_cons.mp hw with rfl | hw
              · intro hwr; simp [Effect.isWrite] at hwr
              exact ih w hw

lemma head_noWrites (domain : String) :
    onlyDomainPatches domain
      [.createAccount, .createCsr, .createOrder, .getAuthorizations] :=
  onlyDomainPatches_of_B domain _ (by simp [onlyDomainPatchesB, Effect.isWrite])

lemma certFetchStep_writes (env : AcmeEnv) (renewal : Bool) (domain : String) :
    onlyDomainPatches domain (certFetchStep env renewal).2 := by
  cases renewal with
  | false =>
    exact onlyDomainPatches_of_B domain _ (by simp [onlyDomainPatchesB, certFetchStep, Effect.isWrite])
  | true =>
    show onlyDomainPatches domain (certFetchStep env true).2
    simp only [certFetchStep, if_true]
    cases env.waitForValidStatusOrder with
    | error e =>
      exact onlyDomainPatches_of_B domain _ (by simp [onlyDomainPatchesB, Effect.isWrite])
    | ok _ =>
      cases env.getOrder with
      | error e =>
        exact onlyDomainPatches_of_B domain _ (by simp [onlyDomainPatchesB, Effect.isWrite])
      | ok _ =>
        exact onlyDomainPatches_of_B domain _ (by simp [onlyDomainPatchesB, Effect.isWrite])

lemma certFetchStep_ok_renewal (env : AcmeEnv) (cert : String)
    (h : (certFetchStep env true).1 = .ok cert) :
    (certFetchStep env true).2 =
      [.waitOrderValid, .sleep 1000, .getOrder, .getCertificate] := by
  cases hw : env.waitForValidStatusOrder with
  | error e => exfalso; simp [certFetchStep, hw] at h
  | ok _ =>
    cases hg : env.getOrder with
    | error e => exfalso; simp [certFetchStep, hw, hg] at h
    | ok _ => simp [certFetchStep, hw, hg]

lemma performHttpChallenge_shape (env : AcmeEnv) (domain : String) (renewal : Bool) :
    ∃ pre : List Effect, onlyDomainPatches domain pre ∧
      ((∃ e, (performHttpChallenge env domain renewal).1 = Except.error e ∧
          (performHttpChallenge env domain renewal).2 = pre) ∨
       (∃ cert, (certFetchStep env renewal).1 = Except.ok cert ∧
          (∃ mid, pre = mid ++ Effect.finalizeOrder :: (certFetchStep env renewal).2) ∧
          (performHttpChallenge env domain renewal).2 =
            pre ++ [Effect.putIssued domain env.now (env.now + 60),
                    Effect.installCertificate cert] ∧
          (((performHttpChallenge env domain renewal).1 = Except.ok cert ∧
              env.installCertificate cert = Except.ok ()) ∨
           (∃ e, (performHttpChallenge env domain renewal).1 = Except.error e ∧
              env.installCertificate cert = Except.error e)))) := by
  unfold performHttpChallenge
  cases hca : env.createAccount with
  | error e =>
    simp only [hca]
    exact ⟨[.createAccount],
      onlyDomainPatches_of_B domain _ (by simp [onlyDomainPatchesB, Effect.isWrite]),
      Or.inl ⟨e, rfl, rfl⟩⟩
  | ok _ =>
    simp only [hca]
    cases hcsr : env.createCsr with
    | error e =>
      simp only [hcsr]
      exact ⟨[.createAccount, .createCsr],
        onlyDomainPatches_of_B domain _ (by simp [onlyDomainPatchesB, Effect.isWrite]),
        Or.inl ⟨e, rfl, rfl⟩⟩
    | ok _ =>
      simp only [hcsr]
      cases hco : env.createOrder with
      | error e =>
        simp only [hco]
        exact ⟨[.createAccount, .createCsr, .createOrder],
          onlyDomainPatches_of_B domain _ (by simp [onlyDomainPatchesB, Effect.isWrite]),
          Or.inl ⟨e, rfl, rfl⟩⟩
      | ok _ =>
        simp only [hco]
        cases hga : env.getAuthorizations with
        | error e =>
          simp only [hga]
          exact ⟨[.createAccount, .createCsr, .createOrder, .getAuthorizations],
            head_noWrites domain, Or.inl ⟨e, rfl, rfl⟩⟩
        | ok authorizations =>
          simp only [hga]
          cases hloop : (challengeLoop env domain authorizations).1 with
          | error e =>
            simp only [hloop]
            exact ⟨[.createAccount, .createCsr, .createOrder, .getAuthorizations]
                ++ (challengeLoop env domain authorizations).2,
              onlyDomainPatches_append (head_noWrites domain)
                (challengeLoop_writes env domain authorizations),
              Or.inl ⟨e, rfl, rfl⟩⟩
          | ok _ =>
            simp only [hloop]
            cases hfo : env.finalizeOrder with
            | error e =>
              simp only [hfo]
              exact ⟨[.createAccount, .createCsr, .createOrder, .getAuthorizations]
                  ++ (challengeLoop env domain authorizations).2 ++ [.finalizeOrder],
                onlyDomainPatches_append (onlyDomainPatches_append (head_noWrites domain)
                  (challengeLoop_writes env domain authorizations))
                  (onlyDomainPatches_of_B domain _ (by simp [onlyDomainPatchesB, Effect.isWrite])),
                Or.inl ⟨e, rfl, rfl⟩⟩
            | ok _ =>
              simp only [hfo]
              have hpre : onlyDomainPatches domain
                  ([Effect.createAccount, .createCsr, .createOrder, .getAuthorizations]
                    ++ (challengeLoop env domain authorizations).2 ++ [.finalizeOrder]
                    ++ (certFetchStep env renewal).2) :=
                onlyDomainPatches_append (onlyDomainPatches_append
                  (onlyDomainPatches_append (head_noWrites domain)
                    (challengeLoop_writes env domain authorizations))
                  (onlyDomainPatches_of_B domain _ (by simp [onlyDomainPatchesB, Effect.isWrite])))
                  (certFetchStep_writes env renewal domain)
              cases hcf : (certFetchStep env renewal).1 with
              | error e =>
                simp only [hcf]
                exact ⟨[.createAccount, .createCsr, .createOrder, .getAuthorizations]
                    ++ (challengeLoop env domain authorizations).2 ++ [.finalizeOrder]
                    ++ (certFetchStep env renewal).2,
                  hpre, Or.inl ⟨e, rfl, rfl⟩⟩
              | ok cert =>
                simp only [hcf]
                have hmid : [Effect.createAccount, .createCsr, .createOrder, .getAuthorizations]
                      ++ (challengeLoop env domain authorizations).2 ++ [.finalizeOrder]
                      ++ (certFetchStep env renewal).2 =
                    ([Effect.createAccount, .createCsr, .createOrder, .getAuthorizations]
                      ++ (challengeLoop env domain authorizations).2)
                      ++ Effect.finalizeOrder :: (certFetchStep env renewal).2 := by
                  simp
                cases hput : env.putIssuedResult with
                | error e =>
                  simp only [hput]
                  exact ⟨[Effect.createAccount, .createCsr, .createOrder, .getAuthorizations]
                      ++ (challengeLoop env domain authorizations).2 ++ [.finalizeOrder]
                      ++ (certFetchStep env renewal).2,
                    hpre, Or.inl ⟨e, rfl, rfl⟩⟩
                | ok _ =>
                  simp only [hput]
                  cases hinst : env.installCertificate cert with
                  | error e =>
                    simp only [hinst]
                    exact ⟨[Effect.createAccount, .createCsr, .createOrder, .getAuthorizations]
                        ++ (challengeLoop env domain authorizations).2 ++ [.finalizeOrder]
                        ++ (certFetchStep env renewal).2,
                      hpre, Or.inr ⟨cert, rfl, ⟨_, hmid⟩, rfl,
                        Or.inr ⟨e, rfl, hinst⟩⟩⟩
                  | ok _ =>
                    simp only [hinst]
                    exact ⟨[Effect.createAccount, .createCsr, .createOrder, .getAuthorizations]
                        ++ (challengeLoop env domain authorizations).2 ++ [.finalizeOrder]
                        ++ (certFetchStep env renewal).2,
                      hpre, Or.inr ⟨cert, rfl, ⟨_, hmid⟩, rfl,
                        Or.inl ⟨rfl, hinst⟩⟩⟩

lemma performHttpChallenge_success (env : AcmeEnv) (domain : String) (renewal : Bool)
    (cert : String) (hok : (performHttpChallenge env domain renewal).1 = .ok cert) :
    ∃ pre, onlyDomainPatches domain pre ∧
      (certFetchStep env renewal).1 = .ok cert ∧
      (∃ mid, pre = mid ++ Effect.finalizeOrder :: (certFetchStep env renewal).2) ∧
      (performHttpChallenge env domain renewal).2 =
        pre ++ [Effect.putIssued domain env.now (env.now + 60),
                Effect.installCertificate cert] := by
  obtain ⟨pre, hpre, hcase⟩ := performHttpChallenge_shape env domain renewal
  rcases hcase with ⟨e, he, _⟩ | ⟨cert', h1, h2, h3, h4⟩
  · rw [hok] at he
    exact absurd he (by simp)
  · have hcc : cert' = cert := by
      rcases h4 with ⟨hr, _⟩ | ⟨e, hr, _⟩
      · rw [hok] at hr
        exact (Except.ok.inj hr).symm
      · rw [hok] at hr
        exact absurd hr (by simp)
    subst hcc
    exact ⟨pre, hpre, h1, h2, h3⟩

lemma applyEffects_append (r : DomainRecord) (l₁ l₂ : List Effect) :
    applyEffects r (l₁ ++ l₂) = applyEffects (applyEffects r l₁) l₂ := by
  simp [applyEffects, List.foldl_append]

lemma applyEffects_patches (domain : String) :
    ∀ l, onlyDomainPatches domain l → ∀ r : DomainRecord,
      (applyEffects r l).issueDate = r.issueDate ∧
      (applyEffects r l).renewalDate = r.renewalDate ∧
      (applyEffects r l).inProgress = r.inProgress := by
  intro l
  induction l with
  | nil => intro _ r; exact ⟨rfl, rfl, rfl⟩
  | cons w l ih =>
    intro h r
    have htail : onlyDomainPatches domain l := fun x hx => h x (List.mem_cons_of_mem w hx)
    have hstep : applyEffects r (w :: l) = applyEffects (applyEffect r w) l := rfl
    rw [hstep]
    obtain ⟨h1, h2, h3⟩ := ih htail (applyEffect r w)
    rw [h1, h2, h3]
    cases w
    case putIssued d i rd =>
      obtain ⟨t, c, habs⟩ := h _ (List.mem_cons_self _ _) rfl
      exact absurd habs (by simp)
    all_goals exact ⟨rfl, rfl, rfl⟩

/-- C3: after a successful (fresh) issuance run starting from a record
holding only the domain, the final state has the challenge fields cleared,
`inProgress = false`, `issueDate = now` and `renewalDate = now + 60 days`,
all set by one final atomic `put`; every write before it is a challenge
patch, and no intermediate state ever has `issueDate` set while a challenge
field is still populated. -/
theorem issuance_success_record_roundtrip (env : AcmeEnv) (domain : String) (cert : String)
    (hok : (performHttpChallenge env domain false).1 = Except.ok cert) :
    (applyEffects { domain := domain } (performHttpChallenge env domain false).2 =
      { domain := domain, challengeToken := none, challengeContent := none,
        issueDate := some env.now, renewalDate := some (env.now + 60), inProgress := false }) ∧
    (∃ pre, (performHttpChallenge env domain false).2 =
        pre ++ [Effect.putIssued domain env.now (env.now + 60),
                Effect.installCertificate cert] ∧
      onlyDomainPatches domain pre) ∧
    (∀ n,
      ¬((applyEffects { domain := domain }
            ((performHttpChallenge env domain false).2.take n)).issueDate.isSome = true ∧
        ((applyEffects { domain := domain }
            ((performHttpChallenge env domain false).2.take n)).challengeToken.isSome = true ∨
         (applyEffects { domain := domain }
            ((performHttpChallenge env domain false).2.take n)).challengeContent.isSome = true))) := by
  obtain ⟨pre, hpre, _, _, htr⟩ := performHttpChallenge_success env domain false cert hok
  refine ⟨?_, ⟨pre, htr, hpre⟩, ?_⟩
  · rw [htr, applyEffects_append]
    rfl
  · intro n
    rw [htr, List.take_append_eq_append_take]
    cases hk : n - pre.length with
    | zero =>
      simp only [List.take_zero, List.append_nil]
      have hsub : onlyDomainPatches domain (pre.take n) :=
        fun x hx => hpre x (List.take_subset n pre hx)
      have hid := (applyEffects_patches domain (pre.take n) hsub { domain := domain }).1
      rintro ⟨h1, _⟩
      rw [hid] at h1
      simp at h1
    | succ k =>
      have hlen : pre.length ≤ n := by omega
      rw [List.take_of_length_le hlen]
      cases k with
      | zero =>
        rw [applyEffects_append]
        rintro ⟨_, h2 | h2⟩ <;> simp [applyEffects, applyEffect] at h2
      | succ k' =>
        rw [applyEffects_append]
        rintro ⟨_, h2 | h2⟩ <;> simp [applyEffects, applyEffect] at h2

/-- Witness for C3: the sample environment's successful run ends in the
fully-cleared, dated record. -/
theorem issuance_success_record_roundtrip_witness :
    applyEffects { domain := "example.com" }
        (performHttpChallenge sampleEnv "example.com" false).2 =
      { domain := "example.com", challengeToken := none, challengeContent := none,
        issueDate := some 20000, renewalDate := some (20000 + 60), inProgress := false } :=
  (issuance_success_record_roundtrip sampleEnv "example.com" "PEMCERT" (by rfl)).1

/-- C8 counterexample: when every protocol step succeeds but the final
certificate-installation operation fails, the error propagates, yet the
final success write has already happened — the record's `inProgress` flag,
set to `true` before the attempt, is `false` after the failed attempt,
contradicting the claim that a failing step leaves `inProgress = true`. -/
theorem issuance_install_failure_cex :
    (performHttpChallenge sampleEnvInstallFail "example.com" false).1 =
      Except.error "EACCES" ∧
    Effect.putIssued "example.com" 20000 20060 ∈
      (performHttpChallenge sampleEnvInstallFail "example.com" false).2 ∧
    (applyEffects { domain := "example.com", inProgress := true }
        (performHttpChallenge sampleEnvInstallFail "example.com" false).2).inProgress
      = false := by
  exact ⟨by rfl, by decide, by decide⟩

/-- C8 amended: when `performHttpChallenge` fails, the error is propagated
and the error path itself writes nothing; if the failure happened at or
before the final record write, that write is absent from the trace and the
record's `inProgress` (true before the attempt) is untouched; the only
failing step after which the success write persists is the post-write
certificate-installation call. -/
theorem issuance_error_propagation (env : AcmeEnv) (domain : String) (renewal : Bool)
    (e : String)
    (herr : (performHttpChallenge env domain renewal).1 = Except.error e) :
    ((∀ d i rd, Effect.putIssued d i rd ∉ (performHttpChallenge env domain renewal).2) ∧
      ∀ r : DomainRecord,
        (applyEffects r (performHttpChallenge env domain renewal).2).inProgress
          = r.inProgress) ∨
    (∃ cert, env.installCertificate cert = Except.error e ∧
      ∃ pre, (performHttpChallenge env domain renewal).2 =
        pre ++ [Effect.putIssued domain env.now (env.now + 60),
                Effect.installCertificate cert]) := by
  obtain ⟨pre, hpre, hcase⟩ := performHttpChallenge_shape env domain renewal
  rcases hcase with ⟨e', _, htr⟩ | ⟨cert, _, _, htr, h4⟩
  · left
    constructor
    · intro d i rd hmem
      rw [htr] at hmem
      obtain ⟨t, c, habs⟩ := hpre _ hmem rfl
      exact absurd habs (by simp)
    · intro r
      rw [htr]
      exact (applyEffects_patches domain pre hpre r).2.2
  · right
    rcases h4 with ⟨hr, _⟩ | ⟨e', hr, hinst⟩
    · rw [herr] at hr
      exact absurd hr (by simp)
    · have hee : e = e' := by
        rw [herr] at hr
        exact Except.error.inj hr
      subst hee
      exact ⟨cert, hinst, pre, htr⟩

/-- Witness for C8's amended theorem: with account creation failing, no
record write at all occurs and `inProgress` is preserved. -/
theorem issuance_error_propagation_witness :
    ((∀ d i rd, Effect.putIssued d i rd ∉
        (performHttpChallenge sampleEnvAcctFail "example.com" false).2) ∧
      ∀ r : DomainRecord,
        (applyEffects r (performHttpChallenge sampleEnvAcctFail "example.com" false).2).inProgress
          = r.inProgress) ∨
    (∃ cert, sampleEnvAcctFail.installCertificate cert = Except.error "down" ∧
      ∃ pre, (performHttpChallenge sampleEnvAcctFail "example.com" false).2 =
        pre ++ [Effect.putIssued "example.com" sampleEnvAcctFail.now
                  (sampleEnvAcctFail.now + 60),
                Effect.installCertificate cert]) :=
  issuance_error_propagation sampleEnvAcctFail "example.com" false "down" (by rfl)

/-! ## Theorems about the lifecycle orchestrator -/

/-- C6: a change-feed event whose value has `inProgress` already truthy, or
`challengeToken` or `issueDate` set, or no (truthy) `domain`, is a no-op for
the subscription handler: whatever the leadership result, no `inProgress`
patch is written and no issuance is started — so re-delivery of a
new-domain event after `inProgress` was set to true starts nothing. -/
theorem handleEvent_noop (leaderResult : ElectionResult) (value : Option EventValue)
    (h : jsTruthyBool (value.bind EventValue.inProgress) = true ∨
         jsTruthyStr (value.bind EventValue.challengeToken) = true ∨
         jsTruthyDate (value.bind EventValue.issueDate) = true ∨
         jsTruthyStr (value.bind EventValue.domain) = false) :
    handleEvent leaderResult value = [] := by
  unfold handleEvent
  rcases h with h | h | h | h <;> simp [h]

/-- Witness for C6: the event produced by the `inProgress: true` patch (same
domain, `inProgress` now true) is a no-op, even on the leader node. -/
theorem handleEvent_noop_witness :
    handleEvent { isLeader := true, totalNodes := 3 }
      (some { domain := some "example.com", challengeToken := none,
              issueDate := none, inProgress := some true }) = [] :=
  handleEvent_noop { isLeader := true, totalNodes := 3 }
    (some { domain := some "example.com", challengeToken := none,
            issueDate := none, inProgress := some true })
    (Or.inl (by decide))

/-- C7: for records found by the renewal scan (`renewalDate < now`), a
non-leader node takes no action; a leader node patches `inProgress := true`
and then issues in renewal mode as a direct call — the scan never uses the
retry wrapper; and a successful renewal-mode issuance performs the extra
confirmation round-trip (wait for order validity, 1 s pause, order
re-fetch) immediately before certificate retrieval and the final write. -/
theorem renewal_scan_spec (leaderResult : ElectionResult) (records : List DomainRecord)
    (now : Nat) :
    (leaderResult.isLeader = false → renewalScan leaderResult records now = []) ∧
    (leaderResult.isLeader = true →
      renewalScan leaderResult records now =
        (records.filter fun r =>
          match r.renewalDate with
          | some d => d < now
          | none => false).flatMap
          (fun r => [.patchInProgress r.domain, .performIssueDirect r.domain true])) ∧
    (∀ d delay, OrchestratorEffect.fireRetryIssuance d delay ∉
      renewalScan leaderResult records now) ∧
    (∀ env domain cert, (performHttpChallenge env domain true).1 = Except.ok cert →
      ∃ pre, (performHttpChallenge env domain true).2 =
        pre ++ [Effect.waitOrderValid, Effect.sleep 1000, Effect.getOrder,
                Effect.getCertificate,
                Effect.putIssued domain env.now (env.now + 60),
                Effect.installCertificate cert]) := by
  refine ⟨?_, ?_, ?_, ?_⟩
  · intro h
    unfold renewalScan
    have hstep : renewalScanStep leaderResult =
        fun _ : DomainRecord => ([] : List OrchestratorEffect) :=
      funext fun r => by simp [renewalScanStep, h]
    rw [hstep]
    generalize List.filter _ records = l
    induction l with
    | nil => rfl
    | cons a l ih => simp only [List.flatMap_cons, ih, List.nil_append]
  · intro h
    unfold renewalScan
    have hstep : renewalScanStep leaderResult = fun r : DomainRecord =>
        [OrchestratorEffect.patchInProgress r.domain,
         OrchestratorEffect.performIssueDirect r.domain true] :=
      funext fun r => by simp [renewalScanStep, h]
    rw [hstep]
  · intro d delay hmem
    by_cases h : leaderResult.isLeader <;>
      simp [renewalScan, renewalScanStep, h] at hmem
  · intro env domain cert hok
    obtain ⟨pre, _, hcf, ⟨mid, hmid⟩, htr⟩ :=
      performHttpChallenge_success env domain true cert hok
    refine ⟨mid ++ [Effect.finalizeOrder], ?_⟩
    rw [htr, hmid, certFetchStep_ok_renewal env cert hcf]
    simp

/-- Witness for C7: a non-leader scan over a due record does nothing, and the
sample environment's successful renewal run ends with the confirmation
round-trip, the final write, and the installation. -/
theorem renewal_scan_spec_witness :
    renewalScan { isLeader := false, totalNodes := 2 }
      [{ domain := "example.com", renewalDate := some 10 }] 100 = [] ∧
    ∃ pre, (performHttpChallenge sampleEnv "example.com" true).2 =
      pre ++ [Effect.waitOrderValid, Effect.sleep 1000, Effect.getOrder,
              Effect.getCertificate,
              Effect.putIssued "example.com" 20000 (20000 + 60),
              Effect.installCertificate "PEMCERT"] := by
  refine ⟨(renewal_scan_spec { isLeader := false, totalNodes := 2 }
    [{ domain := "example.com", renewalDate := some 10 }] 100).1 rfl, ?_⟩
  exact (renewal_scan_spec { isLeader := false, totalNodes := 2 } [] 0).2.2.2
    sampleEnv "example.com" "PEMCERT" (by rfl)

end ChallengeCertificate
